import Mathlib

/-!
Verification of the lag-correlation analyzer of Script5.0.py.

The embedding models a pandas DataFrame as a list of named columns, each a
list of cells.  A cell is `Option ℚ`: `none` models a missing value / NaN
float, `some q` a finite numeric value (exact rationals stand in for the
finite floating-point numbers, whose order and arithmetic they share on
representable values).

`compute_lag_correlations` (source lines 67-75) and the optimal-lag
selection `max(correlations, key=correlations.get)` (source line 140) are
embedded below, together with the frame produced by `plot_data`
(source lines 135-137).
-/

deriving instance DecidableEq for Except

/-- A cell of a pandas Series: `none` is NaN / missing, `some q` a number. -/
abbrev Cell := Option ℚ

/-- A DataFrame: a list of named columns.  In the frames the analyzer
consumes, all columns share one row index, represented positionally. -/
structure Frame where
  cols : List (String × List Cell)
deriving DecidableEq

/-- Column lookup, `df[name]`: the first column with the given name, or
`none` when the name is absent (a Python KeyError). -/
def Frame.getCol (f : Frame) (name : String) : Option (List Cell) :=
  (f.cols.find? (fun c => c.1 == name)).map (fun c => c.2)

/-- The message of the KeyError raised when a column name is absent. -/
def keyError (name : String) : String := "KeyError: " ++ name

/-- Embedding of `series.shift(-lag)` (source line 70): positional shift keeping the
index, so entry `t` of the result is entry `t + lag` of the source, and the
last `lag` entries become NaN. -/
def shiftNeg (lag : ℕ) (s : List Cell) : List Cell :=
  (List.range s.length).map (fun t => s.getD (t + lag) none)

/-- Embedding of `pd.concat([a, b], axis=1).dropna()` for two same-indexed series
(source line 71): pair the columns row by row and keep only the rows where
both cells are numbers. -/
def dropnaPairs (a b : List Cell) : List (ℚ × ℚ) :=
  (a.zip b).filterMap (fun p =>
    match p with
    | (some x, some y) => some (x, y)
    | _ => none)

/-- The aligned pair rows at a given lag, as the source computes them
(lines 70-71): shift the second column up by `lag`, concatenate with the
first column and drop rows with a missing value. -/
def alignedAt (m2 btc : List Cell) (lag : ℕ) : List (ℚ × ℚ) :=
  dropnaPairs m2 (shiftNeg lag btc)

/-- The aligned pair rows as the spec words them: associate the second
series value at row `t + k` with row `t`, inner-join with the first series
and drop rows where either value is missing. -/
def alignedSpecAt (a b : List Cell) (k : ℕ) : List (ℚ × ℚ) :=
  (List.range a.length).filterMap (fun t =>
    match a.getD t none, b.getD (t + k) none with
    | some x, some y => some (x, y)
    | _, _ => none)

/-- The sufficient statistics of the Pearson correlation of a list of
pairs: the sums of products of deviations from the means.  The pandas
value `aligned[a].corr(aligned[b])` (source line 73) is
`sxy / (sqrt sxx * sqrt syy)`, the `1/(n-1)` normalisations of covariance
and standard deviations cancelling; it is NaN exactly when `sxx = 0` or
`syy = 0`. -/
structure CorrStat where
  sxy : ℚ
  sxx : ℚ
  syy : ℚ
deriving DecidableEq

/-- Arithmetic mean of a list of rationals (0 on the empty list). -/
def mean (l : List ℚ) : ℚ := l.sum / l.length

/-- The Pearson sufficient statistics of a list of (x, y) pairs. -/
def pearsonStat (l : List (ℚ × ℚ)) : CorrStat :=
  let mx := mean (l.map (fun p => p.1))
  let my := mean (l.map (fun p => p.2))
  { sxy := (l.map (fun p => (p.1 - mx) * (p.2 - my))).sum
    sxx := (l.map (fun p => (p.1 - mx) ^ 2)).sum
    syy := (l.map (fun p => (p.2 - my) ^ 2)).sum }

/-- The correlation is a defined (non-NaN) number exactly when both
deviation sums of squares are nonzero. -/
def CorrStat.defined (c : CorrStat) : Prop := c.sxx ≠ 0 ∧ c.syy ≠ 0

instance (c : CorrStat) : Decidable c.defined :=
  inferInstanceAs (Decidable (_ ∧ _))

/-- The exact real value of the Pearson correlation coefficient,
`sxy / (std_x * std_y)`; meaningful when `CorrStat.defined` holds
(otherwise the float computation yields NaN). -/
noncomputable def CorrStat.val (c : CorrStat) : ℝ :=
  (c.sxy : ℝ) / (Real.sqrt c.sxx * Real.sqrt c.syy)

/-- One iteration of the loop of compute_lag_correlations
(source lines 70-74): look the two columns up (KeyError when absent, the
close_btc access on line 70 coming first), align at the given lag, and
produce the correlation statistics when the aligned rows are non-empty. -/
def lagStep (f : Frame) (lag : ℕ) : Except String (Option CorrStat) := do
  let btc ← match f.getCol "close_btc" with
    | some c => Except.ok c
    | none => Except.error (keyError "close_btc")
  let m2 ← match f.getCol "close_m2" with
    | some c => Except.ok c
    | none => Except.error (keyError "close_m2")
  let aligned := alignedAt m2 btc lag
  Except.ok (if aligned.isEmpty then none else some (pearsonStat aligned))

/-- The loop of compute_lag_correlations over a list of lags, building the
correlations dict in insertion order (ascending lag). -/
def computeLagsGo (f : Frame) : List ℕ → Except String (List (ℕ × CorrStat))
  | [] => Except.ok []
  | lag :: rest => do
    let r ← lagStep f lag
    let tail ← computeLagsGo f rest
    match r with
    | some c => Except.ok ((lag, c) :: tail)
    | none => Except.ok tail

/-- compute_lag_correlations (source lines 67-75): iterate the lags of
`range(1, max_lag + 1)` (empty when `max_lag <= 0`), storing an entry for
each lag whose aligned rows are non-empty.  The association list keeps the
dict's insertion order: ascending lag. -/
def computeLagCorrelations (f : Frame) (maxLag : ℤ) :
    Except String (List (ℕ × CorrStat)) :=
  computeLagsGo f (List.range' 1 maxLag.toNat)

/-- The merged frame built by plot_data (source lines 135-137): an inner
merge whose value columns are named close_m2 and close_stock. -/
def mergedFrame (m2Col stockCol : List Cell) : Frame :=
  ⟨[("close_m2", m2Col), ("close_stock", stockCol)]⟩

/-- Python float greater-than on correlation values: any comparison
involving NaN (`none`) is false. -/
def pyGt : Option ℚ → Option ℚ → Bool
  | some a, some b => decide (b < a)
  | _, _ => false

/-- The scan of Python max: keep the current best key, replacing it when a
later value compares strictly greater. -/
def pyMaxGo {α : Type} (gt : α → α → Bool) : ℕ → α → List (ℕ × α) → ℕ
  | k, _, [] => k
  | k, v, (k2, v2) :: rest =>
    if gt v2 v then pyMaxGo gt k2 v2 rest else pyMaxGo gt k v rest

/-- Embedding of `max(d, key=d.get)` (source line 140) over the dict in insertion
order: `none` models the ValueError raised on an empty dict. -/
def pyDictMax {α : Type} (gt : α → α → Bool) : List (ℕ × α) → Option ℕ
  | [] => none
  | (k, v) :: rest => some (pyMaxGo gt k v rest)

/-- The correlation map produced over a list of lags when both columns are
present: an entry per lag with non-empty aligned rows. -/
def lagMap (m2 btc : List Cell) (lags : List ℕ) : List (ℕ × CorrStat) :=
  lags.filterMap (fun k =>
    if (alignedAt m2 btc k).isEmpty then none
    else some (k, pearsonStat (alignedAt m2 btc k)))

/-! ### The aligned rows computed by the source coincide with the spec's description -/

theorem getD_tail (b : List Cell) (n : ℕ) (d : Cell) :
    b.getD (n + 1) d = b.tail.getD n d := by
  cases b <;> rfl

theorem shiftNeg_cons (k : ℕ) (y : Cell) (b : List Cell) :
    shiftNeg k (y :: b) = (y :: b).getD k none :: shiftNeg k b := by
  unfold shiftNeg
  rw [List.length_cons, List.range_succ_eq_map, List.map_cons, List.map_map]
  refine congrArg₂ _ (by simp) (List.map_congr_left fun t ht => ?_)
  simp [Function.comp, Nat.succ_add]

theorem alignedAt_nil_right (a : List Cell) (k : ℕ) : alignedAt a [] k = [] := by
  simp [alignedAt, dropnaPairs, shiftNeg]

theorem alignedAt_cons (x : Cell) (a b : List Cell) (k : ℕ) :
    alignedAt (x :: a) b k =
      (match x, b.getD k none with
       | some u, some v => [(u, v)]
       | _, _ => []) ++ alignedAt a b.tail k := by
  cases b with
  | nil =>
    rw [List.tail_nil, alignedAt_nil_right, alignedAt_nil_right]
    cases x <;> rfl
  | cons y b =>
    show dropnaPairs (x :: a) (shiftNeg k (y :: b)) = _
    rw [shiftNeg_cons]
    show List.filterMap _ ((x, (y :: b).getD k none) :: (a.zip (shiftNeg k b))) = _
    rw [List.filterMap_cons, List.tail_cons]
    cases x <;> cases hg : (y :: b).getD k none <;>
      simp only [hg] <;> rfl

theorem alignedSpecAt_cons (x : Cell) (a b : List Cell) (k : ℕ) :
    alignedSpecAt (x :: a) b k =
      (match x, b.getD k none with
       | some u, some v => [(u, v)]
       | _, _ => []) ++ alignedSpecAt a b.tail k := by
  unfold alignedSpecAt
  rw [List.length_cons, List.range_succ_eq_map, List.filterMap_cons, List.filterMap_map]
  have hfun : ∀ t,
      ((fun t => match (x :: a).getD t none, b.getD (t + k) none with
        | some u, some v => some (u, v)
        | _, _ => none) ∘ Nat.succ) t =
      (fun t => match a.getD t none, b.tail.getD (t + k) none with
        | some u, some v => some (u, v)
        | _, _ => none) t := by
    intro t
    simp only [Function.comp, List.getD_cons_succ, Nat.succ_add, getD_tail]
  rw [funext hfun]
  simp only [Nat.zero_add, List.getD_cons_zero]
  cases x <;> cases hg : b.getD k none <;> simp only [hg] <;> rfl

theorem aligned_eq (a : List Cell) : ∀ (b : List Cell) (k : ℕ),
    alignedAt a b k = alignedSpecAt a b k := by
  induction a with
  | nil => intro b k; rfl
  | cons x a ih =>
    intro b k
    rw [alignedAt_cons, alignedSpecAt_cons, ih]

/-! ### Characterisation of compute_lag_correlations when both columns exist -/

theorem lagStep_ok {f : Frame} {A B : List Cell}
    (hA : f.getCol "close_m2" = some A) (hB : f.getCol "close_btc" = some B)
    (lag : ℕ) :
    lagStep f lag = Except.ok (if (alignedAt A B lag).isEmpty then none
      else some (pearsonStat (alignedAt A B lag))) := by
  simp only [lagStep, hA, hB]
  rfl

theorem computeLagsGo_ok {f : Frame} {A B : List Cell}
    (hA : f.getCol "close_m2" = some A) (hB : f.getCol "close_btc" = some B) :
    ∀ lags : List ℕ, computeLagsGo f lags = Except.ok (lagMap A B lags) := by
  intro lags
  induction lags with
  | nil => rfl
  | cons lag rest ih =>
    rw [computeLagsGo]
    rw [show (do
        let r ← lagStep f lag
        let tail ← computeLagsGo f rest
        match r with
        | some c => Except.ok ((lag, c) :: tail)
        | none => Except.ok tail) =
      (lagStep f lag).bind (fun r => (computeLagsGo f rest).bind (fun tail =>
        match r with
        | some c => Except.ok ((lag, c) :: tail)
        | none => Except.ok tail)) from rfl]
    rw [lagStep_ok hA hB, ih]
    by_cases h : alignedAt A B lag = [] <;>
      simp [lagMap, List.filterMap_cons, h, Except.bind]

theorem mem_lagMap {A B : List Cell} {lags : List ℕ} {k : ℕ} {c : CorrStat} :
    (k, c) ∈ lagMap A B lags ↔
      k ∈ lags ∧ alignedAt A B k ≠ [] ∧ c = pearsonStat (alignedAt A B k) := by
  simp only [lagMap, List.mem_filterMap]
  constructor
  · rintro ⟨a, ha, hf⟩
    cases h : (alignedAt A B a).isEmpty with
    | true => rw [h] at hf; simp at hf
    | false =>
      rw [h] at hf
      simp only [Bool.false_eq_true, if_false, Option.some.injEq, Prod.mk.injEq] at hf
      obtain ⟨hak, hc⟩ := hf
      subst hak
      exact ⟨ha, by simpa using (List.isEmpty_iff).not.mp (by simp [h]), hc.symm⟩
  · rintro ⟨hk, hne, hc⟩
    refine ⟨k, hk, ?_⟩
    rw [if_neg (by simpa [List.isEmpty_iff] using hne), hc]

theorem mem_range'_one {k n : ℕ} : k ∈ List.range' 1 n ↔ 1 ≤ k ∧ k ≤ n := by
  rw [List.mem_range']
  constructor
  · rintro ⟨i, hi, rfl⟩; omega
  · intro h; exact ⟨k - 1, by omega, by omega⟩

/-! ### Claims about the structure of the correlation map -/

/-- Claim C1: for every input frame holding value columns close_m2 and
close_btc and every positive max lag L, compute_lag_correlations returns a
correlation map which, at each lag k in 1..L, shifts the second series
backward by k steps (pairing its row t + k value with row t), inner-joins
it with the first series dropping missing rows, and, when the joined rows
are non-empty, maps k to the Pearson correlation statistics of the joined
columns. -/
theorem claim_C1_lag_correlation_entries {f : Frame} {A B : List Cell}
    {L : ℤ} {k : ℕ}
    (hA : f.getCol "close_m2" = some A) (hB : f.getCol "close_btc" = some B)
    (hL : 1 ≤ L) (hk1 : 1 ≤ k) (hkL : (k : ℤ) ≤ L)
    (hne : alignedSpecAt A B k ≠ []) :
    ∃ m, computeLagCorrelations f L = Except.ok m ∧
      (k, pearsonStat (alignedSpecAt A B k)) ∈ m ∧
      ∀ c, (k, c) ∈ m → c = pearsonStat (alignedSpecAt A B k) := by
  refine ⟨lagMap A B (List.range' 1 L.toNat), computeLagsGo_ok hA hB _, ?_, ?_⟩
  · rw [mem_lagMap]
    exact ⟨mem_range'_one.mpr ⟨hk1, by omega⟩,
      by rw [aligned_eq]; exact hne, by rw [aligned_eq]⟩
  · intro c hc
    rw [mem_lagMap] at hc
    rw [hc.2.2, aligned_eq]

/-- Claim C1 witness. -/
theorem claim_C1_witness :
    ∃ m, computeLagCorrelations
        ⟨[("close_m2", [some 1, some 2, some 3]),
          ("close_btc", [some 1, some 2, some 3])]⟩ 1 = Except.ok m ∧
      (1, pearsonStat (alignedSpecAt [some 1, some 2, some 3]
          [some 1, some 2, some 3] 1)) ∈ m ∧
      ∀ c, (1, c) ∈ m →
        c = pearsonStat (alignedSpecAt [some 1, some 2, some 3]
          [some 1, some 2, some 3] 1) :=
  claim_C1_lag_correlation_entries (by decide) (by decide) (by decide)
    (by decide) (by decide) (by decide)

/-- Claim C7: the correlation map's keys are a subset of 1..L (lag 0 is
never a key), and a lag in range is absent exactly when its shift-and-join
yields no overlapping rows. -/
theorem claim_C7_key_invariant {f : Frame} {A B : List Cell} {L : ℤ}
    (hA : f.getCol "close_m2" = some A) (hB : f.getCol "close_btc" = some B)
    (hL : 1 ≤ L) :
    ∃ m, computeLagCorrelations f L = Except.ok m ∧
      (∀ (k : ℕ) (c : CorrStat), (k, c) ∈ m → 1 ≤ k ∧ (k : ℤ) ≤ L) ∧
      (∀ c : CorrStat, ((0 : ℕ), c) ∉ m) ∧
      (∀ k : ℕ, 1 ≤ k → (k : ℤ) ≤ L →
        ((∀ c : CorrStat, (k, c) ∉ m) ↔ alignedSpecAt A B k = [])) := by
  refine ⟨lagMap A B (List.range' 1 L.toNat), computeLagsGo_ok hA hB _,
    ?_, ?_, ?_⟩
  · intro k c hm
    obtain ⟨hk, -, -⟩ := mem_lagMap.mp hm
    obtain ⟨h1, h2⟩ := mem_range'_one.mp hk
    exact ⟨h1, by omega⟩
  · intro c h0
    obtain ⟨hk, -, -⟩ := mem_lagMap.mp h0
    obtain ⟨h1, -⟩ := mem_range'_one.mp hk
    omega
  · intro k hk1 hkL
    constructor
    · intro habs
      by_contra hne
      exact habs _ (mem_lagMap.mpr ⟨mem_range'_one.mpr ⟨hk1, by omega⟩,
        by rw [aligned_eq]; exact hne, by rw [aligned_eq]⟩)
    · intro hempty c hc
      exact (mem_lagMap.mp hc).2.1 ((aligned_eq A B k).trans hempty)

/-- Claim C7 witness. -/
theorem claim_C7_witness :
    ∃ m, computeLagCorrelations
        ⟨[("close_m2", [some 1, some 2]),
          ("close_btc", [some 3, none])]⟩ 2 = Except.ok m ∧
      (∀ (k : ℕ) (c : CorrStat), (k, c) ∈ m → 1 ≤ k ∧ (k : ℤ) ≤ 2) ∧
      (∀ c : CorrStat, ((0 : ℕ), c) ∉ m) ∧
      (∀ k : ℕ, 1 ≤ k → (k : ℤ) ≤ 2 →
        ((∀ c : CorrStat, (k, c) ∉ m) ↔
          alignedSpecAt [some 1, some 2] [some 3, none] k = [])) :=
  claim_C7_key_invariant (by decide) (by decide) (by decide)

/-! ### Claims about plot_data and error behaviour -/

theorem lagStep_mergedFrame (a b : List Cell) (lag : ℕ) :
    lagStep (mergedFrame a b) lag = Except.error (keyError "close_btc") := by
  have hget : (mergedFrame a b).getCol "close_btc" = none := by
    simp [mergedFrame, Frame.getCol, List.find?]
  simp only [lagStep, hget]
  rfl

/-- Claim C2: the frame merged by plot_data has value columns close_m2 and
close_stock, so for every max lag of at least 1 the first loop iteration
of compute_lag_correlations fails looking up the column close_btc, and no
request through plot_data ever receives a correlation map. -/
theorem claim_C2_plot_data_keyerror (a b : List Cell) (L : ℤ) (hL : 1 ≤ L) :
    computeLagCorrelations (mergedFrame a b) L =
      Except.error (keyError "close_btc") := by
  have hrange : List.range' 1 L.toNat = 1 :: List.range' 2 (L.toNat - 1) := by
    rw [List.range'_eq_cons_iff]
    exact ⟨rfl, by omega, rfl⟩
  rw [computeLagCorrelations, hrange, computeLagsGo, lagStep_mergedFrame]
  rfl

/-- Claim C2 witness, at the default MAX_LAG of plot_data. -/
theorem claim_C2_witness :
    computeLagCorrelations (mergedFrame [some 1, some 2] [some 3, some 4])
      180 = Except.error (keyError "close_btc") :=
  claim_C2_plot_data_keyerror _ _ _ (by decide)

/-- Claim C5, counterexample to the claim that a non-positive max lag
signals an invalid range error: at max lag 0 compute_lag_correlations signals nothing and
returns the empty map. -/
theorem claim_C5_counterexample :
    computeLagCorrelations
      ⟨[("close_m2", [some 1, some 2]), ("close_btc", [some 3, some 4])]⟩ 0 =
      Except.ok [] := rfl

/-- Claim C5 as amended: for every non-positive max lag the loop body of
compute_lag_correlations never runs and the empty correlation map is
returned with no error signalled. -/
theorem claim_C5_amended_no_invalid_range_error (f : Frame) (L : ℤ)
    (hL : L ≤ 0) :
    computeLagCorrelations f L = Except.ok [] := by
  have h : L.toNat = 0 := by omega
  rw [computeLagCorrelations, h]
  rfl

/-- Claim C5 amended witness. -/
theorem claim_C5_witness :
    computeLagCorrelations (mergedFrame [] []) (-1) = Except.ok [] :=
  claim_C5_amended_no_invalid_range_error _ _ (by decide)

/-- Claim C4, counterexample to the claim that an empty correlation map is
reported as a distinct no-valid-lag error: on a one-row frame every lag in 1..2 has no
overlapping rows, compute_lag_correlations returns the empty map as a
plain success, and the caller's max-selection over the empty mapping has
no result (the generic Python ValueError), so no distinct error is ever
signalled. -/
theorem claim_C4_counterexample :
    computeLagCorrelations
        ⟨[("close_m2", [some 1]), ("close_btc", [some 1])]⟩ 2 =
      Except.ok [] ∧
      pyDictMax pyGt ([] : List (ℕ × Option ℚ)) = none :=
  ⟨rfl, rfl⟩

/-- Claim C4 as amended: when no lag in 1..L yields overlapping rows, the
analyzer returns the empty correlation map without signalling any error,
and the selection of line 140 applied to the empty mapping yields no
result (the generic empty-sequence ValueError), not a distinct
no-valid-lag signal. -/
theorem claim_C4_amended_empty_map_no_signal {f : Frame} {A B : List Cell}
    {L : ℤ}
    (hA : f.getCol "close_m2" = some A) (hB : f.getCol "close_btc" = some B)
    (hempty : ∀ k : ℕ, 1 ≤ k → (k : ℤ) ≤ L → alignedSpecAt A B k = []) :
    computeLagCorrelations f L = Except.ok [] ∧
      pyDictMax pyGt ([] : List (ℕ × Option ℚ)) = none := by
  refine ⟨?_, rfl⟩
  rw [computeLagCorrelations, computeLagsGo_ok hA hB]
  have hmap : lagMap A B (List.range' 1 L.toNat) = [] := by
    rw [lagMap, List.filterMap_eq_nil_iff]
    intro k hk
    obtain ⟨h1, h2⟩ := mem_range'_one.mp hk
    rw [if_pos]
    rw [List.isEmpty_iff, aligned_eq]
    exact hempty k h1 (by omega)
  rw [hmap]

/-- Claim C4 amended witness. -/
theorem claim_C4_witness :
    computeLagCorrelations
        ⟨[("close_m2", [some 2]), ("close_btc", [some 3])]⟩ 3 =
      Except.ok [] ∧
      pyDictMax pyGt ([] : List (ℕ × Option ℚ)) = none :=
  @claim_C4_amended_empty_map_no_signal
    ⟨[("close_m2", [some 2]), ("close_btc", [some 3])]⟩ [some 2] [some 3] 3
    (by decide) (by decide)
    (by
      intro k h1 h2
      have hk : k = 1 ∨ k = 2 ∨ k = 3 := by omega
      rcases hk with h | h | h <;> subst h <;> decide)

/-- Claim C8: the analyzer is a pure function of its inputs: two calls on
inputs carrying identical close_m2 and close_btc series produce identical
correlation maps, and hence identical optimal-lag selections, there being
no shared state and no mutation of the inputs (every pandas operation in
lines 70-74 builds a fresh object). -/
theorem claim_C8_deterministic_pure (f₁ f₂ : Frame) (L : ℤ)
    (hm2 : f₁.getCol "close_m2" = f₂.getCol "close_m2")
    (hbtc : f₁.getCol "close_btc" = f₂.getCol "close_btc") :
    computeLagCorrelations f₁ L = computeLagCorrelations f₂ L ∧
      ∀ sel : Except String (List (ℕ × CorrStat)) → Option ℕ,
        sel (computeLagCorrelations f₁ L) =
          sel (computeLagCorrelations f₂ L) := by
  have hstep : ∀ lag, lagStep f₁ lag = lagStep f₂ lag := by
    intro lag
    simp only [lagStep, hm2, hbtc]
  have hgo : ∀ lags : List ℕ, computeLagsGo f₁ lags = computeLagsGo f₂ lags := by
    intro lags
    induction lags with
    | nil => rfl
    | cons lag rest ih =>
      simp only [computeLagsGo, hstep, ih]
  refine ⟨hgo _, fun sel => ?_⟩
  rw [computeLagCorrelations, computeLagCorrelations, hgo]

/-- Claim C8 witness: two frames carrying the same two series, in a
different column order and with an extra unrelated column. -/
theorem claim_C8_witness :
    computeLagCorrelations
        ⟨[("close_m2", [some 1, some 2]), ("close_btc", [some 3, some 4])]⟩ 2 =
      computeLagCorrelations
        ⟨[("close_btc", [some 3, some 4]), ("volume", [some 9, some 9]),
          ("close_m2", [some 1, some 2])]⟩ 2 ∧
      ∀ sel : Except String (List (ℕ × CorrStat)) → Option ℕ,
        sel (computeLagCorrelations
          ⟨[("close_m2", [some 1, some 2]), ("close_btc", [some 3, some 4])]⟩ 2) =
          sel (computeLagCorrelations
            ⟨[("close_btc", [some 3, some 4]), ("volume", [some 9, some 9]),
              ("close_m2", [some 1, some 2])]⟩ 2) :=
  claim_C8_deterministic_pure _ _ _ (by decide) (by decide)

/-! ### Claims about the optimal-lag max-selection of line 140 -/

/-- Claim C3, code bug: on a correlation map whose first entry is NaN,
Python max with key comparison never replaces the initial candidate (every
comparison against NaN is false), so the NaN lag 1 is returned as the
maximum even though the finite coefficient 1/2 is present at lag 2: the
undefined value is not excluded from the max-selection. -/
theorem claim_C3_nan_wins_selection :
    pyDictMax pyGt [(1, (none : Option ℚ)), (2, some (1/2))] = some 1 ∧
      List.lookup 1 [(1, (none : Option ℚ)), (2, some (1/2))] = some none := by
  decide

/-- Claim C6, counterexample: in the map sending lag 1 to NaN and lags 2
and 3 to 1/2, the lags 2 and 3 tie for the maximum coefficient, so the claim requires the
result to be lag 2; the selection of line 140 returns lag 1 instead,
because the NaN first entry is never replaced. -/
theorem claim_C6_counterexample :
    pyDictMax pyGt [(1, (none : Option ℚ)), (2, some (1/2)), (3, some (1/2))] =
        some 1 ∧
      pyDictMax pyGt
        [(1, (none : Option ℚ)), (2, some (1/2)), (3, some (1/2))] ≠ some 2 := by
  decide

theorem pyMaxGo_spec (rest : List (ℕ × Option ℚ)) :
    ∀ (k : ℕ) (v : ℚ),
      (∀ p ∈ rest, p.2 ≠ none) →
      (∀ p ∈ rest, k < p.1) →
      rest.Pairwise (fun p q => p.1 < q.1) →
      ∃ w : ℚ,
        ((pyMaxGo pyGt k (some v) rest = k ∧ w = v) ∨
          (pyMaxGo pyGt k (some v) rest, some w) ∈ rest) ∧
        v ≤ w ∧
        (∀ j u, ((j : ℕ), some (u : ℚ)) ∈ rest → u ≤ w) ∧
        (∀ j u, ((j, some u) = (k, some v) ∨ (j, some u) ∈ rest) → u = w →
          pyMaxGo pyGt k (some v) rest ≤ j) := by
  induction rest with
  | nil =>
    intro k v _ _ _
    refine ⟨v, Or.inl ⟨rfl, rfl⟩, le_refl v, by simp, ?_⟩
    rintro j u (h | h) hw
    · rw [show j = k from congrArg Prod.fst h]
      exact le_refl _
    · simp at h
  | cons p rest ih =>
    intro k v hsome hlt hpair
    obtain ⟨k2, v2opt⟩ := p
    cases v2opt with
    | none => exact absurd rfl (hsome (k2, none) (List.mem_cons_self _ _))
    | some v2 =>
      have hsome' : ∀ p ∈ rest, p.2 ≠ none :=
        fun p hp => hsome p (List.mem_cons_of_mem _ hp)
      have hpair' : rest.Pairwise (fun p q => p.1 < q.1) :=
        (List.pairwise_cons.mp hpair).2
      have hk2rest : ∀ p ∈ rest, k2 < p.1 :=
        (List.pairwise_cons.mp hpair).1
      have hkk2 : k < k2 := hlt (k2, some v2) (List.mem_cons_self _ _)
      by_cases hcmp : v < v2
      · have hgo : pyMaxGo pyGt k (some v) ((k2, some v2) :: rest) =
            pyMaxGo pyGt k2 (some v2) rest := by
          simp [pyMaxGo, pyGt, hcmp]
        obtain ⟨w, hmem, hvw, hmax, hmin⟩ := ih k2 v2 hsome' hk2rest hpair'
        refine ⟨w, ?_, ?_, ?_, ?_⟩
        · rw [hgo]
          rcases hmem with ⟨hr, hw⟩ | hr
          · exact Or.inr (by rw [hr, hw]; exact List.mem_cons_self _ _)
          · exact Or.inr (List.mem_cons_of_mem _ hr)
        · exact le_of_lt (lt_of_lt_of_le hcmp hvw)
        · rintro j u hj
          rcases List.mem_cons.mp hj with h | h
          · obtain ⟨h1, h2⟩ := Prod.mk.injEq .. ▸ h
            rw [Option.some.injEq] at h2
            rw [h2]
            exact hvw
          · exact hmax j u h
        · rintro j u (h | hj) hw
          · obtain ⟨h1, h2⟩ := Prod.mk.injEq .. ▸ h
            rw [Option.some.injEq] at h2
            exact absurd (hw ▸ h2 ▸ lt_of_lt_of_le hcmp hvw) (lt_irrefl _)
          · rcases List.mem_cons.mp hj with h | h
            · obtain ⟨h1, h2⟩ := Prod.mk.injEq .. ▸ h
              rw [Option.some.injEq] at h2
              rw [hgo]
              exact h1 ▸ hmin j u (Or.inl (by rw [h1, h2])) hw
            · rw [hgo]
              exact hmin j u (Or.inr h) hw
      · have hgo : pyMaxGo pyGt k (some v) ((k2, some v2) :: rest) =
            pyMaxGo pyGt k (some v) rest := by
          simp [pyMaxGo, pyGt, hcmp]
        have hv2v : v2 ≤ v := le_of_not_lt hcmp
        have hkrest : ∀ p ∈ rest, k < p.1 :=
          fun p hp => hlt p (List.mem_cons_of_mem _ hp)
        obtain ⟨w, hmem, hvw, hmax, hmin⟩ := ih k v hsome' hkrest hpair'
        refine ⟨w, ?_, hvw, ?_, ?_⟩
        · rw [hgo]
          rcases hmem with ⟨hr, hw⟩ | hr
          · exact Or.inl ⟨hr, hw⟩
          · exact Or.inr (List.mem_cons_of_mem _ hr)
        · rintro j u hj
          rcases List.mem_cons.mp hj with h | h
          · obtain ⟨h1, h2⟩ := Prod.mk.injEq .. ▸ h
            rw [Option.some.injEq] at h2
            exact h2 ▸ le_trans hv2v hvw
          · exact hmax j u h
        · rintro j u (h | hj) hw
          · rw [hgo]
            exact hmin j u (Or.inl h) hw
          · rcases List.mem_cons.mp hj with h | h
            · obtain ⟨h1, h2⟩ := Prod.mk.injEq .. ▸ h
              rw [Option.some.injEq] at h2
              have hveqw : v = w := le_antisymm hvw (hw ▸ h2 ▸ hv2v)
              have hrk : pyMaxGo pyGt k (some v) rest ≤ k :=
                hmin k v (Or.inl rfl) hveqw
              rw [hgo, h1]
              exact le_trans hrk (le_of_lt hkk2)
            · rw [hgo]
              exact hmin j u (Or.inr h) hw

/-- Claim C6 as amended: for every correlation map with ascending lag keys
and no undefined (NaN) coefficient, the selection of line 140 returns a
lag holding a maximal coefficient, and among the lags tying for that
maximum it returns the first in scan order, i.e. the smallest such lag.
(With an undefined coefficient ahead of the tied lags the selection can
return the NaN lag instead; see the counterexample.) -/
theorem claim_C6_amended_smallest_tied_lag {l : List (ℕ × Option ℚ)}
    (hne : l ≠ [])
    (hdef : ∀ p ∈ l, p.2 ≠ none)
    (hsorted : l.Pairwise (fun p q => p.1 < q.1)) :
    ∃ (r : ℕ) (w : ℚ), pyDictMax pyGt l = some r ∧ (r, some w) ∈ l ∧
      (∀ (j : ℕ) (u : ℚ), (j, some u) ∈ l → u ≤ w) ∧
      (∀ (j : ℕ) (u : ℚ), (j, some u) ∈ l → u = w → r ≤ j) := by
  match l, hne with
  | (k, vopt) :: rest, _ =>
    cases vopt with
    | none => exact absurd rfl (hdef (k, none) (List.mem_cons_self _ _))
    | some v =>
      have hdef' : ∀ p ∈ rest, p.2 ≠ none :=
        fun p hp => hdef p (List.mem_cons_of_mem _ hp)
      have hpair' : rest.Pairwise (fun p q => p.1 < q.1) :=
        (List.pairwise_cons.mp hsorted).2
      have hkrest : ∀ p ∈ rest, k < p.1 :=
        (List.pairwise_cons.mp hsorted).1
      obtain ⟨w, hmem, hvw, hmax, hmin⟩ := pyMaxGo_spec rest k v hdef' hkrest hpair'
      refine ⟨pyMaxGo pyGt k (some v) rest, w, rfl, ?_, ?_, ?_⟩
      · rcases hmem with ⟨hr, hw⟩ | hr
        · rw [hr, hw]
          exact List.mem_cons_self _ _
        · exact List.mem_cons_of_mem _ hr
      · rintro j u hj
        rcases List.mem_cons.mp hj with h | h
        · obtain ⟨h1, h2⟩ := Prod.mk.injEq .. ▸ h
          rw [Option.some.injEq] at h2
          exact h2 ▸ hvw
        · exact hmax j u h
      · rintro j u hj hw
        rcases List.mem_cons.mp hj with h | h
        · exact hmin j u (Or.inl h) hw
        · exact hmin j u (Or.inr h) hw

/-- Claim C6 amended witness: in the NaN-free map sending lag 1 to 1/3 and
lags 2 and 3 to 1/2, the selection returns a smallest lag attaining the maximum. -/
theorem claim_C6_witness :
    ∃ (r : ℕ) (w : ℚ),
      pyDictMax pyGt [(1, some (1/3)), (2, some (1/2)), (3, some (1/2))] =
        some r ∧
      (r, some w) ∈ [(1, some (1/3)), (2, some (1/2)), (3, some (1/2))] ∧
      (∀ (j : ℕ) (u : ℚ),
        (j, some u) ∈ [(1, some (1/3)), (2, some (1/2)), (3, some (1/2))] →
          u ≤ w) ∧
      (∀ (j : ℕ) (u : ℚ),
        (j, some u) ∈ [(1, some (1/3)), (2, some (1/2)), (3, some (1/2))] →
          u = w → r ≤ j) :=
  claim_C6_amended_smallest_tied_lag (by decide) (by decide) (by decide)

/-! ### Numeric range of the Pearson coefficient -/

theorem list_cauchy_schwarz (l : List (ℚ × ℚ)) :
    ((l.map (fun p => p.1 * p.2)).sum) ^ 2 ≤
      ((l.map (fun p => p.1 ^ 2)).sum) * ((l.map (fun p => p.2 ^ 2)).sum) := by
  induction l with
  | nil => simp
  | cons p l ih =>
    simp only [List.map_cons, List.sum_cons]
    set S := (l.map (fun p => p.1 * p.2)).sum with hS
    set P := (l.map (fun p => p.1 ^ 2)).sum with hPdef
    set Q := (l.map (fun p => p.2 ^ 2)).sum with hQdef
    have hP : (0 : ℚ) ≤ P := by
      apply List.sum_nonneg
      intro x hx
      obtain ⟨q, hq, rfl⟩ := List.mem_map.mp hx
      exact sq_nonneg _
    have hQ : (0 : ℚ) ≤ Q := by
      apply List.sum_nonneg
      intro x hx
      obtain ⟨q, hq, rfl⟩ := List.mem_map.mp hx
      exact sq_nonneg _
    rcases eq_or_lt_of_le hQ with hQ0 | hQpos
    · have hS0 : S = 0 := by
        have h2 : S ^ 2 ≤ 0 := by
          calc S ^ 2 ≤ P * Q := ih
          _ = 0 := by rw [← hQ0, mul_zero]
        exact pow_eq_zero_iff (by norm_num) |>.mp (le_antisymm h2 (sq_nonneg S))
      rw [hS0, ← hQ0]
      nlinarith [mul_nonneg hP (sq_nonneg p.2)]
    · nlinarith [ih, hP, hQpos, sq_nonneg (p.1 * Q - p.2 * S),
        mul_nonneg (add_nonneg (sq_nonneg p.2) hQ) (sub_nonneg.mpr ih)]

theorem pearsonStat_cs (l : List (ℚ × ℚ)) :
    (pearsonStat l).sxy ^ 2 ≤ (pearsonStat l).sxx * (pearsonStat l).syy := by
  have h := list_cauchy_schwarz (l.map (fun p =>
    (p.1 - mean (l.map (fun q => q.1)), p.2 - mean (l.map (fun q => q.2)))))
  simpa [pearsonStat, List.map_map, Function.comp] using h

theorem pearsonStat_sxx_nonneg (l : List (ℚ × ℚ)) :
    0 ≤ (pearsonStat l).sxx := by
  apply List.sum_nonneg
  intro x hx
  obtain ⟨q, hq, rfl⟩ := List.mem_map.mp hx
  exact sq_nonneg _

theorem pearsonStat_syy_nonneg (l : List (ℚ × ℚ)) :
    0 ≤ (pearsonStat l).syy := by
  apply List.sum_nonneg
  intro x hx
  obtain ⟨q, hq, rfl⟩ := List.mem_map.mp hx
  exact sq_nonneg _

theorem corrStat_val_bound {c : CorrStat} (hcs : c.sxy ^ 2 ≤ c.sxx * c.syy)
    (hx : 0 ≤ c.sxx) (hy : 0 ≤ c.syy) (hd : c.defined) :
    -1 ≤ c.val ∧ c.val ≤ 1 := by
  have hxpos : (0 : ℚ) < c.sxx := lt_of_le_of_ne hx (Ne.symm hd.1)
  have hypos : (0 : ℚ) < c.syy := lt_of_le_of_ne hy (Ne.symm hd.2)
  have hxR : (0 : ℝ) < (c.sxx : ℝ) := by exact_mod_cast hxpos
  have hyR : (0 : ℝ) < (c.syy : ℝ) := by exact_mod_cast hypos
  have hdpos : (0 : ℝ) < Real.sqrt c.sxx * Real.sqrt c.syy :=
    mul_pos (Real.sqrt_pos.mpr hxR) (Real.sqrt_pos.mpr hyR)
  have hcsR : ((c.sxy : ℝ)) ^ 2 ≤ (c.sxx : ℝ) * (c.syy : ℝ) := by
    exact_mod_cast hcs
  have habs : |(c.sxy : ℝ)| ≤ Real.sqrt c.sxx * Real.sqrt c.syy := by
    rw [← Real.sqrt_sq_eq_abs, ← Real.sqrt_mul hxR.le]
    exact Real.sqrt_le_sqrt hcsR
  have hval : |c.val| ≤ 1 := by
    rw [CorrStat.val, abs_div, abs_of_pos hdpos, div_le_one hdpos]
    exact habs
  exact ⟨neg_le_of_abs_le hval, le_of_abs_le hval⟩

/-- Claim C9: every coefficient stored in the correlation map is either an
undefined (NaN) value or a real number in [-1, 1]; no finite value outside
that interval ever appears. -/
theorem claim_C9_coefficient_range {f : Frame} {A B : List Cell} {L : ℤ}
    {m : List (ℕ × CorrStat)} {k : ℕ} {c : CorrStat}
    (hA : f.getCol "close_m2" = some A) (hB : f.getCol "close_btc" = some B)
    (hok : computeLagCorrelations f L = Except.ok m)
    (hmem : (k, c) ∈ m) :
    ¬ c.defined ∨ (-1 ≤ c.val ∧ c.val ≤ 1) := by
  rw [computeLagCorrelations, computeLagsGo_ok hA hB] at hok
  have hm : m = lagMap A B (List.range' 1 L.toNat) := by
    injection hok with h
    exact h.symm
  subst hm
  obtain ⟨-, -, hc⟩ := mem_lagMap.mp hmem
  subst hc
  by_cases hd : (pearsonStat (alignedAt A B k)).defined
  · exact Or.inr (corrStat_val_bound (pearsonStat_cs _)
      (pearsonStat_sxx_nonneg _) (pearsonStat_syy_nonneg _) hd)
  · exact Or.inl hd

/-- Claim C9 witness. -/
theorem claim_C9_witness :
    ¬ (pearsonStat (alignedAt [some 1, some 2, some 3]
        [some 1, some 2, some 3] 1)).defined ∨
      (-1 ≤ (pearsonStat (alignedAt [some 1, some 2, some 3]
          [some 1, some 2, some 3] 1)).val ∧
        (pearsonStat (alignedAt [some 1, some 2, some 3]
          [some 1, some 2, some 3] 1)).val ≤ 1) :=
  @claim_C9_coefficient_range
    ⟨[("close_m2", [some 1, some 2, some 3]),
      ("close_btc", [some 1, some 2, some 3])]⟩
    [some 1, some 2, some 3] [some 1, some 2, some 3] 1
    (lagMap [some 1, some 2, some 3] [some 1, some 2, some 3]
      (List.range' 1 (Int.toNat 1)))
    1 (pearsonStat (alignedAt [some 1, some 2, some 3]
      [some 1, some 2, some 3] 1))
    (by decide) (by decide)
    (computeLagsGo_ok (by decide) (by decide) (List.range' 1 (Int.toNat 1)))
    (mem_lagMap.mpr ⟨by decide, by decide, rfl⟩)

/-! ### Two-point samples -/

theorem pearsonStat_pair (a b c d : ℚ) :
    pearsonStat [(a, b), (c, d)] =
      ⟨(a - c) * (b - d) / 2, (a - c) ^ 2 / 2, (b - d) ^ 2 / 2⟩ := by
  simp only [pearsonStat, mean, List.map_cons, List.map_nil, List.sum_cons,
    List.sum_nil, List.length_cons, List.length_nil]
  rw [CorrStat.mk.injEq]
  push_cast
  refine ⟨by ring, by ring, by ring⟩

theorem corrStat_val_eq_pm_one {c : CorrStat} (hd : c.defined)
    (hsq : c.sxy ^ 2 = c.sxx * c.syy) (hx : 0 ≤ c.sxx) (hy : 0 ≤ c.syy) :
    c.val = 1 ∨ c.val = -1 := by
  have hxpos : (0 : ℚ) < c.sxx := lt_of_le_of_ne hx (Ne.symm hd.1)
  have hypos : (0 : ℚ) < c.syy := lt_of_le_of_ne hy (Ne.symm hd.2)
  have hxR : (0 : ℝ) < (c.sxx : ℝ) := by exact_mod_cast hxpos
  have hyR : (0 : ℝ) < (c.syy : ℝ) := by exact_mod_cast hypos
  have hsqR : ((c.sxy : ℝ)) ^ 2 = (c.sxx : ℝ) * (c.syy : ℝ) := by
    exact_mod_cast hsq
  have habs : Real.sqrt c.sxx * Real.sqrt c.syy = |(c.sxy : ℝ)| := by
    rw [← Real.sqrt_sq_eq_abs, hsqR, Real.sqrt_mul hxR.le]
  have hne : (c.sxy : ℝ) ≠ 0 := by
    intro h0
    rw [h0] at hsqR
    have hpos : (0 : ℝ) < (c.sxx : ℝ) * (c.syy : ℝ) := mul_pos hxR hyR
    rw [← hsqR] at hpos
    norm_num at hpos
  rcases lt_or_gt_of_ne hne with hneg | hpos
  · right
    rw [CorrStat.val, habs, abs_of_neg hneg, div_neg, div_self hne]
  · left
    rw [CorrStat.val, habs, abs_of_pos hpos, div_self hne]

theorem pearsonStat_two_val (p q : ℚ × ℚ)
    (hd : (pearsonStat [p, q]).defined) :
    (pearsonStat [p, q]).val = 1 ∨ (pearsonStat [p, q]).val = -1 := by
  obtain ⟨a, b⟩ := p
  obtain ⟨c, d⟩ := q
  have hstat := pearsonStat_pair a b c d
  refine corrStat_val_eq_pm_one hd ?_ ?_ ?_
  · rw [hstat]; ring
  · rw [hstat]; positivity
  · rw [hstat]; positivity

/-- Claim C10: at any lag in 1..L where the shifted join leaves exactly
two overlapping rows, the analyzer still computes and stores an entry for
that lag without failing, and the coefficient at that entry is a perfect
1 or -1 when defined, else undefined (zero variance). -/
theorem claim_C10_two_point_sample {f : Frame} {A B : List Cell} {L : ℤ}
    {k : ℕ}
    (hA : f.getCol "close_m2" = some A) (hB : f.getCol "close_btc" = some B)
    (hk1 : 1 ≤ k) (hkL : (k : ℤ) ≤ L)
    (hlen : (alignedSpecAt A B k).length = 2) :
    ∃ m, computeLagCorrelations f L = Except.ok m ∧
      (k, pearsonStat (alignedSpecAt A B k)) ∈ m ∧
      (¬ (pearsonStat (alignedSpecAt A B k)).defined ∨
        (pearsonStat (alignedSpecAt A B k)).val = 1 ∨
        (pearsonStat (alignedSpecAt A B k)).val = -1) := by
  have hne : alignedSpecAt A B k ≠ [] := by
    intro h
    rw [h] at hlen
    simp at hlen
  refine ⟨lagMap A B (List.range' 1 L.toNat), computeLagsGo_ok hA hB _, ?_, ?_⟩
  · rw [mem_lagMap]
    exact ⟨mem_range'_one.mpr ⟨hk1, by omega⟩,
      by rw [aligned_eq]; exact hne, by rw [aligned_eq]⟩
  · obtain ⟨p, q, hpq⟩ := List.length_eq_two.mp hlen
    by_cases hd : (pearsonStat (alignedSpecAt A B k)).defined
    · refine Or.inr ?_
      rw [hpq] at hd ⊢
      exact pearsonStat_two_val p q hd
    · exact Or.inl hd

/-- Claim C10 witness: at lag 1 exactly two rows overlap. -/
theorem claim_C10_witness :
    ∃ m, computeLagCorrelations
        ⟨[("close_m2", [some 1, some 2, some 5]),
          ("close_btc", [some 1, some 3, some 4])]⟩ 1 = Except.ok m ∧
      (1, pearsonStat (alignedSpecAt [some 1, some 2, some 5]
        [some 1, some 3, some 4] 1)) ∈ m ∧
      (¬ (pearsonStat (alignedSpecAt [some 1, some 2, some 5]
          [some 1, some 3, some 4] 1)).defined ∨
        (pearsonStat (alignedSpecAt [some 1, some 2, some 5]
          [some 1, some 3, some 4] 1)).val = 1 ∨
        (pearsonStat (alignedSpecAt [some 1, some 2, some 5]
          [some 1, some 3, some 4] 1)).val = -1) :=
  claim_C10_two_point_sample (by decide) (by decide) (by decide) (by decide)
    (by decide)
